import Mathlib

/-!
Verification of the surface-detection and deprojection pipeline of the
CO_layers repository (source files measure_height.py and
CO_layers/measure_height.py).

The numeric arrays of the source are modelled over ℚ: every arithmetic
operation used by the pipeline (+, -, *, /, abs, comparisons) is exact on
the rationals, and the square root, which is the one operation leaving ℚ,
is abstracted as an arbitrary function parameter `sq : ℚ → ℚ`; every
theorem below is universally quantified over `sq`, hence holds in
particular for the real square root.  Non-finite float values (inf/nan)
cannot be represented inside ℚ, so the places where the source can produce
them by a division by zero are tracked explicitly by the predicate
`vFiniteB` (see the comments there); the validity masks of the source test
`np.isinf`/`np.isnan` through that predicate.
-/

namespace COLayers

/-- Discrete first differences of a profile: `y[1:] - y[:-1]`. -/
def diffs (y : List ℚ) : List ℚ :=
  (y.zip y.tail).map (fun p => p.2 - p.1)

/-- Candidate maxima: indices where `np.hstack((0, dy)) > 0` and
`np.hstack((dy, 0)) < 0` (a strictly positive difference immediately
followed by a strictly negative one; the zero padding makes the two
boundary indices fail the corresponding strict test). -/
def candidates (y : List ℚ) : List ℕ :=
  (List.range y.length).filter
    (fun i => decide (0 < (0 :: diffs y).getD i 0) && decide ((diffs y ++ [0]).getD i 0 < 0))

/-- Candidate maxima according to the claim's reading of the spec
("a candidate peak is any interior index where the difference transitions
from non-negative to negative"): the strict positivity of the preceding
difference is weakened to non-negativity. -/
def specCandidates (y : List ℚ) : List ℕ :=
  (List.range y.length).filter
    (fun i => decide (0 < i) && decide (i + 1 < y.length) &&
      decide (0 ≤ (0 :: diffs y).getD i 0) && decide ((diffs y ++ [0]).getD i 0 < 0))

/-- Insert an index into a list already sorted by decreasing key, behind
every entry whose key is not smaller (so that among equal values the later
candidate of the original order ends up first, as in the reversed stable
`np.argsort`). -/
def insertDesc (key : ℕ → ℚ) (x : ℕ) : List ℕ → List ℕ
  | [] => [x]
  | h :: t => if key h < key x then x :: h :: t else h :: insertDesc key x t

/-- Sort a list of indices by decreasing key. -/
def sortDesc (key : ℕ → ℚ) : List ℕ → List ℕ
  | [] => []
  | h :: t => insertDesc key h (sortDesc key t)

/-- The suppression window test `(b >= a - dx) & (b <= a + dx)`. -/
def near (dx : ℚ) (a b : ℕ) : Bool :=
  decide ((a : ℚ) - dx ≤ (b : ℚ)) && decide ((b : ℚ) ≤ (a : ℚ) + dx)

/-- One iteration of the flag loop at position `i`. -/
def stepFlags (xs : List ℕ) (dx : ℚ) (flags : List Bool) (i : ℕ) : List Bool :=
  if flags.getD i true = true then flags
  else
    (List.range xs.length).map
      (fun k => if k = i then false
        else flags.getD k true || near dx (xs.getD i 0) (xs.getD k 0))

/-- State of the flag array after the first `m` iterations of the loop. -/
def flagsAfter (xs : List ℕ) (dx : ℚ) : ℕ → List Bool
  | 0 => List.replicate xs.length false
  | m + 1 => stepFlags xs dx (flagsAfter xs dx m) m

/-- The flag array after the whole loop `for i in range(i_max.size)`. -/
def runFlags (xs : List ℕ) (dx : ℚ) : List Bool :=
  flagsAfter xs dx xs.length

/-- Boolean-mask indexing `i_max[~flag_remove]`. -/
def suppress (xs : List ℕ) (dx : ℚ) : List ℕ :=
  ((List.range xs.length).filter (fun i => !(runFlags xs dx).getD i true)).map
    (fun i => xs.getD i 0)

/-- Candidates surviving the `if threshold:` filter; `threshold=None` or `0`
is falsy in Python, so the filter is skipped there. -/
def threshFiltered (y : List ℚ) (t : ℚ) : List ℕ :=
  if t ≠ 0 then (candidates y).filter (fun i => decide (t < y.getD i 0)) else candidates y

/-- Candidates after threshold filtering and strength sorting, immediately
before the suppression step. -/
def sortedCands (y : List ℚ) (t : ℚ) : List ℕ :=
  sortDesc (fun i => y.getD i 0) (threshFiltered y t)

/-- Model of `search_maxima(y, threshold, dx)` (both source files). -/
def searchMaxima (y : List ℚ) (t dx : ℚ) : List ℕ :=
  if 1 < dx then suppress (sortedCands y t) dx else sortedCands y t

/-! ## Sub-pixel quadratic refinement

Both source files refine a selected integer peak row j of a column
profile f through

    a0 = 13. * f_max / 12. - (f_plus + f_minus) / 24.
    a1 = 0.5 * (f_plus - f_minus)
    a2 = 0.5 * (f_plus + f_minus - 2*f_max)
    y_max = j - 0.5 * a1 / a2
    f_max = a0 - 0.25 * a1**2 / a2
-/

/-- Quadratic coefficient `a0`. -/
def a0c (fm f0 fp : ℚ) : ℚ := 13 * f0 / 12 - (fp + fm) / 24

/-- Quadratic coefficient `a1`. -/
def a1c (fm f0 fp : ℚ) : ℚ := (1 / 2) * (fp - fm)

/-- Quadratic coefficient `a2`. -/
def a2c (fm f0 fp : ℚ) : ℚ := (1 / 2) * (fp + fm - 2 * f0)

/-- Refined peak position `y_max = j - 0.5 * a1 / a2`. -/
def yRefine (j : ℕ) (fm f0 fp : ℚ) : ℚ :=
  (j : ℚ) - (1 / 2) * a1c fm f0 fp / a2c fm f0 fp

/-- Refined peak value `f_max = a0 - 0.25 * a1**2 / a2`. -/
def fRefine (fm f0 fp : ℚ) : ℚ :=
  a0c fm f0 fp - (1 / 4) * (a1c fm f0 fp) ^ 2 / a2c fm f0 fp

/-- Refined position of peak row `j` inside a column profile. -/
def refinePos (prof : List ℚ) (j : ℕ) : ℚ :=
  yRefine j (prof.getD (j - 1) 0) (prof.getD j 0) (prof.getD (j + 1) 0)

/-- Refined value of peak row `j` inside a column profile. -/
def refineVal (prof : List ℚ) (j : ℕ) : ℚ :=
  fRefine (prof.getD (j - 1) 0) (prof.getD j 0) (prof.getD (j + 1) 0)

/-- The coefficient `a2` of the refinement quadratic at row `j` of a
profile. -/
def a2at (prof : List ℚ) (j : ℕ) : ℚ :=
  a2c (prof.getD (j - 1) 0) (prof.getD j 0) (prof.getD (j + 1) 0)

/-- The concrete profile `f(t) = -(t - 1)^2`, a quadratic with interior
maximum value 0 at t = 1. -/
def qEx (t : ℚ) : ℚ := -(t - 1) ^ 2

/-! ## Near/far pair selection of measure_height.py detect_surface
(lines 234-253): keep the two strongest maxima, then fix them up against
the stellar row

    j_surf[i,:] = j_max[:2]
    if (j_surf[i,0] < y_star and j_surf[i,1] < y_star):
        j_max_2nd = j_max[np.where(j_max > y_star)]
        if len(j_max_2nd) > 0: j_surf[i,1] = j_max_2nd[0]
        else: in_surface[i] = False
    elif (j_surf[i,0] > y_star and j_surf[i,1] > y_star):
        j_max_2nd = j_max[np.where(j_max < y_star)]
        if len(j_max_2nd) > 0: j_surf[i,0] = j_max_2nd[0]
        else: in_surface[i] = False
    else:
        j_surf[i,:] = np.sort(j_max[:2])
-/

/-- Pair selection of detect_surface (measure_height.py): `jm` is the
strength-sorted output of search_maxima; `none` models
`in_surface[i] = False`. -/
def selectPairA (ys : ℚ) (jm : List ℕ) : Option (ℕ × ℕ) :=
  match jm with
  | a :: b :: _ =>
    if (a : ℚ) < ys ∧ (b : ℚ) < ys then
      match (jm.filter (fun (j : ℕ) => decide (ys < (j : ℚ)))).head? with
      | some c => some (a, c)
      | none => none
    else if ys < (a : ℚ) ∧ ys < (b : ℚ) then
      match (jm.filter (fun (j : ℕ) => decide ((j : ℚ) < ys))).head? with
      | some c => some (c, b)
      | none => none
    else some (min a b, max a b)
  | _ => none

/-! ## Per-channel detection loop of Surface._detect_surface
(CO_layers/measure_height.py) -/

/-- Degree-1 least-squares fit `np.polyfit(x, y, 1)` in exact arithmetic,
returning `(slope, intercept)`.  `np.polyfit` raises on an empty input,
modelled as `none`.  On a rank-deficient system (all abscissae equal) the
underlying `lstsq` returns the minimum-norm least-squares solution, whose
closed form for a single repeated abscissa x0 is
`(x0*m/(1+x0^2), m/(1+x0^2))` with m the mean ordinate. -/
def polyfit1 : List (ℚ × ℚ) → Option (ℚ × ℚ)
  | [] => none
  | p :: ps =>
    let pts := p :: ps
    let n : ℚ := pts.length
    let sx := (pts.map Prod.fst).sum
    let sy := (pts.map Prod.snd).sum
    let sxx := (pts.map (fun q => q.1 * q.1)).sum
    let sxy := (pts.map (fun q => q.1 * q.2)).sum
    let dnm := n * sxx - sx * sx
    if dnm ≠ 0 then
      some ((n * sxy - sx * sy) / dnm, (sy * sxx - sx * sxy) / dnm)
    else
      some (p.1 * (sy / n) / (1 + p.1 * p.1), (sy / n) / (1 + p.1 * p.1))

/-- Evaluation `P[1] + P[0]*x` of a fitted line. -/
def lineAt (P : ℚ × ℚ) (x : ℚ) : ℚ := P.2 + P.1 * x

/-- A column selection: the column index, the refined pair of cross-axis
positions, and the pair of refined (converted) intensities. -/
def ColSel : Type := ℕ × (ℚ × ℚ) × (ℚ × ℚ)

/-- The straddle test of the outlier-rejection fit:
`(j_surf_exact[:,0] < P[1]+P[0]*x) & (j_surf_exact[:,1] > P[1]+P[0]*x)`. -/
def straddles (P : ℚ × ℚ) (s : ColSel) : Bool :=
  decide (s.2.1.1 < lineAt P (s.1 : ℚ)) && decide (lineAt P (s.1 : ℚ) < s.2.1.2)

/-- One column of Surface._detect_surface: peak search, the two
star-position consistency tests (guarded by `y_star is not None`), and
sub-pixel refinement with Jy/beam-to-Tb conversion `jy`.  `none` models a
column not marked in-surface. -/
def processColumnB (ystar : Option ℚ) (thr dx : ℚ) (jy : ℚ → ℚ)
    (i : ℕ) (prof : List ℚ) : Option ColSel :=
  match searchMaxima prof thr dx with
  | a :: b :: rest =>
    let jm := a :: b :: rest
    let p0 := min a b
    let p1 := max a b
    let pairO : Option (ℕ × ℕ) :=
      match ystar with
      | none => some (p0, p1)
      | some ys =>
        let afterSup : Option (ℕ × ℕ) :=
          if (p1 : ℚ) < ys then
            match (jm.filter (fun (j : ℕ) => decide (ys < (j : ℚ)))).head? with
            | some c => some (a, c)
            | none => none
          else some (p0, p1)
        match afterSup with
        | none => none
        | some pr => if ((pr.1 : ℚ) + (pr.2 : ℚ)) / 2 < ys then none else some pr
    match pairO with
    | none => none
    | some (j0, j1) =>
      some (i, (refinePos prof j0, refinePos prof j1),
        (jy (refineVal prof j0), jy (refineVal prof j1)))
  | _ => none

/-- All in-surface column selections of one channel, in column order. -/
def channelSels (ystar : Option ℚ) (thr dx : ℚ) (jy : ℚ → ℚ)
    (cols : List (List ℚ)) : List ColSel :=
  cols.enum.filterMap (fun p => processColumnB ystar thr dx jy p.1 p.2)

/-- Mid-line ordinate `np.mean(j_surf_exact[in_surface,:], axis=1)` paired
with the column index, the input of the outlier-rejection fits. -/
def midPoints (sels : List ColSel) : List (ℚ × ℚ) :=
  sels.map (fun s => ((s.1 : ℚ), (s.2.1.1 + s.2.1.2) / 2))

/-- The final save of one channel: `n = np.sum(in_surface)` together with
the surviving columns' indices, refined position pairs and intensity
pairs. -/
def saveSels (sels : List ColSel) :
    ℕ × List ℕ × List (ℚ × ℚ) × List (ℚ × ℚ) :=
  (sels.length, sels.map (fun s => s.1),
    sels.map (fun s => s.2.1), sels.map (fun s => s.2.2))

/-- One channel of Surface._detect_surface after the per-column loop: the
two-pass outlier-rejection fit (run only when more than 2 columns are in
surface) and the final save.  The result is `(n, x_surf, y_surf,
Tb_surf)`; `none` models an uncaught exception (np.polyfit applied to an
empty vector) aborting the run. -/
def detectChannelB (ystar : Option ℚ) (thr dx : ℚ) (jy : ℚ → ℚ)
    (cols : List (List ℚ)) :
    Option (ℕ × List ℕ × List (ℚ × ℚ) × List (ℚ × ℚ)) :=
  if (channelSels ystar thr dx jy cols).isEmpty then some (0, [], [], [])
  else if 2 < (channelSels ystar thr dx jy cols).length then
    match polyfit1 (midPoints (channelSels ystar thr dx jy cols)) with
    | none => none
    | some P =>
      match polyfit1 (midPoints
          ((channelSels ystar thr dx jy cols).filter (straddles P))) with
      | none => none
      | some P2 =>
        some (saveSels ((channelSels ystar thr dx jy cols).filter (straddles P2)))
  else some (saveSels (channelSels ystar thr dx jy cols))

/-! ## Deprojection

measure_mol_surface (measure_height.py) and Surface._compute_surface
(CO_layers/measure_height.py).  A raw detector point carries the channel
velocity, the along-axis position x, the pair of cross-axis positions
y[...,0] (below/near) and y[...,1] (above/far) and the pair of
intensities. -/

structure RawPoint where
  vel : ℚ
  x : ℚ
  y0 : ℚ
  y1 : ℚ
  t0 : ℚ
  t1 : ℚ
deriving DecidableEq

/-- Disk geometry parameters.  `sin_i` and `cos_i` stand for
`np.sin(np.radians(inc))` and `np.cos(np.radians(inc))`, supplied as exact
rationals. -/
structure DiskGeom where
  sin_i : ℚ
  cos_i : ℚ
  x_star : ℚ
  y_star : ℚ
  v_syst : ℚ
  pixelscale : ℚ
  distance : Option ℚ
deriving DecidableEq

/-- Mid-line `y_c = (y_a + y_b)/2`. -/
def ycOf (p : RawPoint) : ℚ := (p.y1 + p.y0) / 2

/-- Raw height `h = (y_c - y_star)/sin(inc)` of measure_mol_surface,
before the global sign flip. -/
def hRaw (G : DiskGeom) (p : RawPoint) : ℚ := (ycOf p - G.y_star) / G.sin_i

/-- The global `h`-sign test of measure_mol_surface:
`len(np.where(h<0)[0]) > 0.995*len(h)`. -/
def flipH (G : DiskGeom) (pts : List RawPoint) : Bool :=
  decide ((199 : ℚ) / 200 * (pts.length : ℚ)
    < ((pts.filter (fun p => decide (hRaw G p < 0))).length : ℚ))

/-- Unscaled radius of measure_mol_surface; the two branches of the sign
flip use `(y_c - y_b)` and `(y_a - y_c)` respectively. -/
def rRaw (sq : ℚ → ℚ) (G : DiskGeom) (fl : Bool) (p : RawPoint) : ℚ :=
  if fl then sq ((p.x - G.x_star) ^ 2 + ((ycOf p - p.y0) / G.cos_i) ^ 2)
  else sq ((p.x - G.x_star) ^ 2 + ((p.y1 - ycOf p) / G.cos_i) ^ 2)

/-- Height after the conditional global sign flip. -/
def hVal (G : DiskGeom) (fl : Bool) (p : RawPoint) : ℚ :=
  if fl then -hRaw G p else hRaw G p

/-- Rotation velocity
`v = (cube.velocity - v_syst) * r / ((x - x_star) * sin(inc))`, computed
from the unscaled radius. -/
def vVal (sq : ℚ → ℚ) (G : DiskGeom) (fl : Bool) (p : RawPoint) : ℚ :=
  (p.vel - G.v_syst) * rRaw sq G fl p / ((p.x - G.x_star) * G.sin_i)

/-- Combined pixel-scale and optional distance factor applied to r and h. -/
def scaleG (G : DiskGeom) : ℚ := G.pixelscale * G.distance.getD 1

/-- Scaled radius. -/
def rScaled (sq : ℚ → ℚ) (G : DiskGeom) (fl : Bool) (p : RawPoint) : ℚ :=
  rRaw sq G fl p * scaleG G

/-- Scaled height. -/
def hScaled (G : DiskGeom) (fl : Bool) (p : RawPoint) : ℚ :=
  hVal G fl p * scaleG G

/-- Finiteness of the float velocity of a point.  Over the floats `v` is
non-finite exactly when a division by zero occurred on its dataflow path:
either `cos(inc) = 0` (making r = hypot(x, y/cos) inf or nan) or the
velocity denominator `(x - x_star)*sin(inc)` is zero.  The masks
`np.isinf(v) | np.isnan(v)` of both deprojectors are modelled through this
predicate. -/
def vFiniteB (G : DiskGeom) (p : RawPoint) : Bool :=
  decide (G.cos_i ≠ 0) && decide ((p.x - G.x_star) * G.sin_i ≠ 0)

/-- Combined mask of measure_mol_surface:
`mask1 = (h<0) | np.isinf(v) | np.isnan(v) | (r>400)` and
`mask2 = mask1 | (np.abs(cube.velocity - v_syst) < 0.4)`.
When `sin(inc) = 0` the float `h` is non-finite and its sign test may
disagree with the ℚ convention `q/0 = 0`, but every such point also has
`(x - x_star)*sin(inc) = 0`, so `!vFiniteB` masks it in both semantics;
likewise `cos(inc) = 0` makes the float `r` non-finite, and `!vFiniteB`
again masks the point regardless of how `r > 400` evaluates. -/
def mask2B (sq : ℚ → ℚ) (G : DiskGeom) (fl : Bool) (p : RawPoint) : Bool :=
  (decide (hScaled G fl p < 0) || !vFiniteB G p
      || decide (400 < rScaled sq G fl p))
    || decide (|p.vel - G.v_syst| < 2 / 5)

/-- Points surviving mask2 (`np.ma.masked_array(.,mask2).compressed()`). -/
def mmsStage1 (sq : ℚ → ℚ) (G : DiskGeom) (pts : List RawPoint) : List RawPoint :=
  pts.filter (fun p => !mask2B sq G (flipH G pts) p)

/-- The global velocity-sign test `np.mean(v) < 0` of measure_mol_surface
(the mean of the empty compressed array is nan in numpy, which compares
false; with the ℚ convention 0/0 = 0 the comparison is false as well). -/
def mmsDoFlip (sq : ℚ → ℚ) (G : DiskGeom) (pts : List RawPoint) : Bool :=
  decide (((mmsStage1 sq G pts).map (vVal sq G (flipH G pts))).sum
    / ((mmsStage1 sq G pts).length : ℚ) < 0)

/-- Velocity of a point after the conditional global sign flip. -/
def mmsV (sq : ℚ → ℚ) (G : DiskGeom) (pts : List RawPoint) (p : RawPoint) : ℚ :=
  if mmsDoFlip sq G pts then -vVal sq G (flipH G pts) p
  else vVal sq G (flipH G pts) p

/-- Points surviving the residual mask `mask3 = (v<0)`. -/
def mmsStage2 (sq : ℚ → ℚ) (G : DiskGeom) (pts : List RawPoint) : List RawPoint :=
  (mmsStage1 sq G pts).filter (fun p => !decide (mmsV sq G pts p < 0))

/-- Full output of measure_mol_surface: the compressed parallel sequences
`(r, h, v, Tb)`, with `Tb = cube._Jybeam_to_Tb(np.mean(T, axis=2))`
abstracted by the conversion `jy`. -/
def mmsOut (sq jy : ℚ → ℚ) (G : DiskGeom) (pts : List RawPoint) :
    List (ℚ × ℚ × ℚ × ℚ) :=
  (mmsStage2 sq G pts).map (fun p =>
    (rScaled sq G (flipH G pts) p, hScaled G (flipH G pts) p,
      mmsV sq G pts p, jy ((p.t0 + p.t1) / 2)))

/-- Star-subtracted mid-line of Surface._compute_surface:
`y_c = 0.5*((y_sky1 - y_star) + (y_sky0 - y_star))`. -/
def csYc (G : DiskGeom) (p : RawPoint) : ℚ :=
  ((p.y1 - G.y_star) + (p.y0 - G.y_star)) / 2

/-- Unscaled radius `r = np.hypot(x - x_star, (y_f - y_c)/cos(inc))` of
Surface._compute_surface. -/
def csRraw (sq : ℚ → ℚ) (G : DiskGeom) (p : RawPoint) : ℚ :=
  sq ((p.x - G.x_star) ^ 2 + (((p.y1 - G.y_star) - csYc G p) / G.cos_i) ^ 2)

/-- Scaled radius of Surface._compute_surface. -/
def csR (sq : ℚ → ℚ) (G : DiskGeom) (p : RawPoint) : ℚ :=
  csRraw sq G p * G.pixelscale

/-- Scaled height `h = (y_c/sin(inc)) * pixelscale` of
Surface._compute_surface. -/
def csH (G : DiskGeom) (p : RawPoint) : ℚ :=
  csYc G p / G.sin_i * G.pixelscale

/-- Rotation velocity of Surface._compute_surface (computed from the
unscaled radius). -/
def csV (sq : ℚ → ℚ) (G : DiskGeom) (p : RawPoint) : ℚ :=
  (p.vel - G.v_syst) * csRraw sq G p / ((p.x - G.x_star) * G.sin_i)

/-- Mask of Surface._compute_surface:
`(h<0) | np.isinf(v) | np.isnan(v)` joined with
`np.abs(cube.velocity - v_syst) < 1.5` (the same `sin(inc) = 0` /
`cos(inc) = 0` remark as for the measure_mol_surface mask applies). -/
def csMask (sq : ℚ → ℚ) (G : DiskGeom) (p : RawPoint) : Bool :=
  (decide (csH G p < 0) || !vFiniteB G p)
    || decide (|p.vel - G.v_syst| < 3 / 2)

/-- Unmasked points of the masked arrays held by Surface._compute_surface. -/
def csUnmasked (sq : ℚ → ℚ) (G : DiskGeom) (pts : List RawPoint) : List RawPoint :=
  pts.filter (fun p => !csMask sq G p)

/-- The global sign test `np.mean(v) < 0` of Surface._compute_surface,
taken over the unmasked entries (np.mean of a masked array). -/
def csDoFlip (sq : ℚ → ℚ) (G : DiskGeom) (pts : List RawPoint) : Bool :=
  decide (((csUnmasked sq G pts).map (csV sq G)).sum
    / ((csUnmasked sq G pts).length : ℚ) < 0)

/-- Velocity of a point after the conditional global sign flip of
Surface._compute_surface. -/
def csVOut (sq : ℚ → ℚ) (G : DiskGeom) (pts : List RawPoint) (p : RawPoint) : ℚ :=
  if csDoFlip sq G pts then -csV sq G p else csV sq G p

/-- The valid (unmasked) `(r, h, v)` entries stored by
Surface._compute_surface. -/
def csOut (sq : ℚ → ℚ) (G : DiskGeom) (pts : List RawPoint) : List (ℚ × ℚ × ℚ) :=
  (csUnmasked sq G pts).map (fun p => (csR sq G p, csH G p, csVOut sq G pts p))

/-! ## Concrete instances used by witnesses and counterexamples -/

/-- A column profile with two unit peaks at rows 1 and 3 (refined
positions 1 and 3, midpoint 2). -/
def colA : List ℚ := [0, 1, 0, 1, 0, 0, 0, 0, 0, 0, 0]

/-- A column profile with two unit peaks at rows 7 and 9 (refined
positions 7 and 9, midpoint 8). -/
def colB : List ℚ := [0, 0, 0, 0, 0, 0, 0, 1, 0, 1, 0]

/-- Example geometry: sin(inc) = cos(inc) = 1 (exaggerated but legal
rational stand-ins), star at the pixel origin, zero systemic velocity,
unit pixel scale, no distance. -/
def exG : DiskGeom := ⟨1, 1, 0, 0, 0, 1, none⟩

/-- Example detector point: channel velocity 2, x = 1, cross-axis pair
(0, 2), zero intensities. -/
def exPt : RawPoint := ⟨2, 1, 0, 2, 0, 0⟩

/-- Example detector point on a channel of velocity -2, giving a negative
rotation velocity before the global sign flip. -/
def exPtNeg : RawPoint := ⟨-2, 1, 0, 2, 0, 0⟩

/-! ## Theorems -/

theorem length_diffs (y : List ℚ) : (diffs y).length = y.length - 1 := by
  simp [diffs, List.length_tail]

theorem diffs_getD (y : List ℚ) (j : ℕ) (h : j + 1 < y.length) :
    (diffs y).getD j 0 = y.getD (j + 1) 0 - y.getD j 0 := by
  have hlen : j < (diffs y).length := by
    rw [length_diffs]; omega
  have hy : j < y.length := by omega
  have ht : j < y.tail.length := by
    rw [List.length_tail]; omega
  have hz : j < (y.zip y.tail).length := by
    rw [List.length_zip]; exact lt_min hy ht
  rw [List.getD_eq_getElem?_getD, List.getD_eq_getElem?_getD, List.getD_eq_getElem?_getD]
  rw [List.getElem?_eq_getElem hlen, List.getElem?_eq_getElem hy,
    List.getElem?_eq_getElem h]
  simp only [Option.getD_some]
  simp only [diffs, List.getElem_map, List.getElem_zip, List.getElem_tail]

/-- Characterisation of the candidate set: exactly the interior indices
whose profile value strictly exceeds both neighbours. -/
theorem mem_candidates (y : List ℚ) (i : ℕ) :
    i ∈ candidates y ↔
      0 < i ∧ i + 1 < y.length ∧
        y.getD (i - 1) 0 < y.getD i 0 ∧ y.getD (i + 1) 0 < y.getD i 0 := by
  simp only [candidates, List.mem_filter, List.mem_range, Bool.and_eq_true, decide_eq_true_eq]
  constructor
  · rintro ⟨hi, h1, h2⟩
    rcases Nat.eq_zero_or_pos i with h0 | h0
    · subst h0; simp at h1
    have hd : (diffs y).length = y.length - 1 := length_diffs y
    rcases lt_or_ge (i + 1) y.length with hlt | hge
    · have hprev : i - 1 + 1 < y.length := by omega
      have hnext : i + 1 < y.length := hlt
      refine ⟨h0, hlt, ?_, ?_⟩
      · have : (0 :: diffs y).getD i 0 = (diffs y).getD (i - 1) 0 := by
          obtain ⟨k, rfl⟩ : ∃ k, i = k + 1 := ⟨i - 1, by omega⟩
          simp [List.getD_cons_succ]
        rw [this, diffs_getD y (i - 1) hprev] at h1
        have : i - 1 + 1 = i := by omega
        rw [this] at h1
        linarith
      · have hlen2 : i < (diffs y).length := by omega
        have : (diffs y ++ [0]).getD i 0 = (diffs y).getD i 0 := by
          rw [List.getD_eq_getElem?_getD, List.getD_eq_getElem?_getD]
          rw [List.getElem?_append_left hlen2]
        rw [this, diffs_getD y i hnext] at h2
        linarith
    · exfalso
      -- i = y.length - 1 : the trailing zero of hstack((dy,0)) fails `< 0`
      have hi' : i = y.length - 1 := by omega
      have hlen2 : (diffs y).length = i := by omega
      have : (diffs y ++ [0]).getD i 0 = 0 := by
        rw [List.getD_eq_getElem?_getD]
        rw [List.getElem?_append_right (by omega)]
        simp [hlen2]
      rw [this] at h2
      exact absurd h2 (by norm_num)
  · rintro ⟨h0, hlt, hprev, hnext⟩
    have hd : (diffs y).length = y.length - 1 := length_diffs y
    refine ⟨by omega, ?_, ?_⟩
    · obtain ⟨k, rfl⟩ : ∃ k, i = k + 1 := ⟨i - 1, by omega⟩
      have hk : k + 1 < y.length := by omega
      have : (0 :: diffs y).getD (k + 1) 0 = (diffs y).getD k 0 := by
        simp [List.getD_cons_succ]
      rw [this, diffs_getD y k hk]
      have hk1 : k + 1 - 1 = k := by omega
      rw [hk1] at hprev
      linarith
    · have hlen2 : i < (diffs y).length := by omega
      have : (diffs y ++ [0]).getD i 0 = (diffs y).getD i 0 := by
        rw [List.getD_eq_getElem?_getD, List.getD_eq_getElem?_getD]
        rw [List.getElem?_append_left hlen2]
      rw [this, diffs_getD y i hlt]
      linarith

theorem insertDesc_perm (key : ℕ → ℚ) (x : ℕ) (l : List ℕ) :
    (insertDesc key x l).Perm (x :: l) := by
  induction l with
  | nil => simp [insertDesc]
  | cons h t ih =>
    by_cases hc : key h < key x
    · simp [insertDesc, if_pos hc]
    · simp only [insertDesc, if_neg hc]
      exact (ih.cons h).trans (List.Perm.swap x h t)

theorem sortDesc_perm (key : ℕ → ℚ) (l : List ℕ) : (sortDesc key l).Perm l := by
  induction l with
  | nil => simp [sortDesc]
  | cons h t ih =>
    exact (insertDesc_perm key h (sortDesc key t)).trans (ih.cons h)

theorem insertDesc_sorted (key : ℕ → ℚ) (x : ℕ) (l : List ℕ)
    (hl : l.Sorted (fun a b => key b ≤ key a)) :
    (insertDesc key x l).Sorted (fun a b => key b ≤ key a) := by
  induction l with
  | nil => simp [insertDesc]
  | cons h t ih =>
    rcases List.sorted_cons.mp hl with ⟨hh, ht⟩
    by_cases hc : key h < key x
    · simp only [insertDesc, if_pos hc]
      refine List.sorted_cons.mpr ⟨?_, hl⟩
      intro b hb
      rcases List.mem_cons.mp hb with rfl | hbt
      · exact le_of_lt hc
      · exact le_trans (hh b hbt) (le_of_lt hc)
    · simp only [insertDesc, if_neg hc]
      push_neg at hc
      refine List.sorted_cons.mpr ⟨?_, ih ht⟩
      intro b hb
      have hb' := (insertDesc_perm key x t).mem_iff.mp hb
      rcases List.mem_cons.mp hb' with rfl | hbt
      · exact hc
      · exact hh b hbt

theorem sortDesc_sorted (key : ℕ → ℚ) (l : List ℕ) :
    (sortDesc key l).Sorted (fun a b => key b ≤ key a) := by
  induction l with
  | nil => simp [sortDesc, List.Sorted]
  | cons h t ih => exact insertDesc_sorted key h (sortDesc key t) ih

theorem near_iff (dx : ℚ) (a b : ℕ) : near dx a b = true ↔ |(a : ℚ) - b| ≤ dx := by
  simp only [near, Bool.and_eq_true, decide_eq_true_eq, abs_sub_le_iff]
  constructor <;> rintro ⟨h1, h2⟩ <;> constructor <;> linarith

theorem near_symm (dx : ℚ) (a b : ℕ) : near dx a b = near dx b a := by
  by_cases h : |(a : ℚ) - b| ≤ dx
  · rw [(near_iff dx a b).mpr h, (near_iff dx b a).mpr (by rwa [abs_sub_comm])]
  · have h1 : near dx a b = false := by
      rw [← Bool.not_eq_true]
      exact fun hc => h ((near_iff dx a b).mp hc)
    have h2 : near dx b a = false := by
      rw [← Bool.not_eq_true]
      exact fun hc => h (by rw [abs_sub_comm]; exact (near_iff dx b a).mp hc)
    rw [h1, h2]

/-! ### Invariants of the flag loop -/

theorem getD_map_range (f : ℕ → Bool) (n k : ℕ) (d : Bool) :
    ((List.range n).map f).getD k d = if k < n then f k else d := by
  by_cases h : k < n
  · have hk : k < ((List.range n).map f).length := by simpa using h
    rw [List.getD_eq_getElem?_getD, List.getElem?_eq_getElem hk]
    simp [List.getElem_map, List.getElem_range, h]
  · have hk : ((List.range n).map f).length ≤ k := by simpa using Nat.le_of_not_lt h
    rw [List.getD_eq_getElem?_getD, List.getElem?_eq_none hk]
    simp [h]

theorem getD_eq_get (l : List ℕ) (i : ℕ) (h : i < l.length) (d : ℕ) :
    l.getD i d = l.get ⟨i, h⟩ := by
  rw [List.getD_eq_getElem?_getD, List.getElem?_eq_getElem h]
  rfl

theorem length_flagsAfter (xs : List ℕ) (dx : ℚ) (m : ℕ) :
    (flagsAfter xs dx m).length = xs.length := by
  induction m with
  | zero => simp [flagsAfter]
  | succ m ih =>
    show (stepFlags xs dx (flagsAfter xs dx m) m).length = xs.length
    unfold stepFlags
    split
    · exact ih
    · simp

/-- Flags only ever go from unset to set during the loop: a set flag stays
set through any later iteration. -/
theorem stepFlags_mono (xs : List ℕ) (dx : ℚ) (flags : List Bool) (i k : ℕ)
    (h : flags.getD k true = true) :
    (stepFlags xs dx flags i).getD k true = true := by
  unfold stepFlags
  split
  · exact h
  · rename_i hcond
    rw [getD_map_range]
    split
    · rename_i hk
      by_cases hki : k = i
      · subst hki; exact absurd h hcond
      · rw [if_neg hki, h]
        rfl
    · rfl

theorem flagsAfter_mono (xs : List ℕ) (dx : ℚ) (k : ℕ) {m m' : ℕ} (hm : m ≤ m')
    (h : (flagsAfter xs dx m).getD k true = true) :
    (flagsAfter xs dx m').getD k true = true := by
  induction m' with
  | zero =>
    have : m = 0 := Nat.le_zero.mp hm
    subst this; exact h
  | succ m' ih =>
    rcases Nat.lt_or_ge m (m' + 1) with hlt | hge
    · have := ih (Nat.lt_succ_iff.mp hlt)
      exact stepFlags_mono xs dx _ m' k this
    · have : m = m' + 1 := le_antisymm hm hge
      subst this; exact h

/-- If position `i` is still unflagged when the loop reaches it, the
iteration at `i` runs: it keeps `i` unflagged and flags every other
position within the suppression window of `xs[i]`. -/
theorem flagsAfter_step_self (xs : List ℕ) (dx : ℚ) (i : ℕ) (hi : i < xs.length)
    (h : (flagsAfter xs dx i).getD i true = false) :
    (flagsAfter xs dx (i + 1)).getD i true = false := by
  show (stepFlags xs dx (flagsAfter xs dx i) i).getD i true = false
  unfold stepFlags
  rw [if_neg (by rw [h]; exact Bool.false_ne_true)]
  rw [getD_map_range, if_pos hi, if_pos rfl]

theorem flagsAfter_step_other (xs : List ℕ) (dx : ℚ) (i k : ℕ) (hk : k < xs.length)
    (hki : k ≠ i)
    (h : (flagsAfter xs dx i).getD i true = false)
    (hnear : near dx (xs.getD i 0) (xs.getD k 0) = true) :
    (flagsAfter xs dx (i + 1)).getD k true = true := by
  show (stepFlags xs dx (flagsAfter xs dx i) i).getD k true = true
  unfold stepFlags
  rw [if_neg (by rw [h]; exact Bool.false_ne_true)]
  rw [getD_map_range, if_pos hk, if_neg hki]
  rw [hnear]
  exact Bool.or_true _

/-- A position that ends the loop unflagged was already unflagged when the
loop reached it. -/
theorem kept_at_own_turn (xs : List ℕ) (dx : ℚ) (i : ℕ) (hi : i ≤ xs.length)
    (h : (runFlags xs dx).getD i true = false) :
    (flagsAfter xs dx i).getD i true = false := by
  by_contra hc
  have hc' : (flagsAfter xs dx i).getD i true = true := by
    rcases Bool.eq_false_or_eq_true ((flagsAfter xs dx i).getD i true) with h' | h'
    · exact h'
    · exact absurd h' hc
  have := flagsAfter_mono xs dx i hi hc'
  rw [runFlags] at h
  rw [this] at h
  exact Bool.true_eq_false.mp h

/-- Key separation invariant: two positions both unflagged at the end of
the loop hold indices separated by more than `dx`. -/
theorem kept_separated (xs : List ℕ) (dx : ℚ) (i j : ℕ) (hij : i < j)
    (hj : j < xs.length)
    (hki : (runFlags xs dx).getD i true = false)
    (hkj : (runFlags xs dx).getD j true = false) :
    near dx (xs.getD i 0) (xs.getD j 0) = false := by
  by_contra hc
  have hnear : near dx (xs.getD i 0) (xs.getD j 0) = true := by
    rcases Bool.eq_false_or_eq_true (near dx (xs.getD i 0) (xs.getD j 0)) with h' | h'
    · exact h'
    · exact absurd h' hc
  have hi : i < xs.length := lt_trans hij hj
  have hstepi := kept_at_own_turn xs dx i (le_of_lt hi) hki
  have hset := flagsAfter_step_other xs dx i j hj (by omega) hstepi hnear
  have := flagsAfter_mono xs dx j (by omega : i + 1 ≤ xs.length) hset
  rw [runFlags] at hkj
  rw [this] at hkj
  exact Bool.true_eq_false.mp hkj

/-- The strongest candidate (position 0) is never flagged: the
`flag_remove[i] = False` line keeps the current maximum, and any later
candidate close enough to flag it was itself flagged at step 0. -/
theorem head_never_flagged (xs : List ℕ) (dx : ℚ) (h0 : 0 < xs.length) (m : ℕ) :
    (flagsAfter xs dx m).getD 0 true = false := by
  induction m with
  | zero =>
    simp [flagsAfter, List.getD_eq_getElem?_getD, List.getElem?_replicate, h0]
  | succ m ih =>
    rcases Nat.eq_zero_or_pos m with rfl | hm
    · exact flagsAfter_step_self xs dx 0 h0 ih
    · show (stepFlags xs dx (flagsAfter xs dx m) m).getD 0 true = false
      unfold stepFlags
      split
      · exact ih
      · rename_i hcond
        rw [getD_map_range, if_pos h0, if_neg (by omega)]
        have hnear : near dx (xs.getD 0 0) (xs.getD m 0) = false := by
          by_contra hc
          have hn : near dx (xs.getD 0 0) (xs.getD m 0) = true := by
            rcases Bool.eq_false_or_eq_true (near dx (xs.getD 0 0) (xs.getD m 0)) with h' | h'
            · exact h'
            · exact absurd h' hc
          by_cases hmlen : m < xs.length
          · have h00 : (flagsAfter xs dx 0).getD 0 true = false := by
              simp [flagsAfter, List.getD_eq_getElem?_getD, List.getElem?_replicate, h0]
            have hset := flagsAfter_step_other xs dx 0 m hmlen (by omega) h00 hn
            have := flagsAfter_mono xs dx m (by omega : 0 + 1 ≤ m) hset
            exact hcond this
          · have hlen : (flagsAfter xs dx m).length = xs.length := length_flagsAfter xs dx m
            have : (flagsAfter xs dx m).getD m true = true := by
              rw [List.getD_eq_getElem?_getD, List.getElem?_eq_none (by omega)]
              rfl
            exact hcond this
        rw [ih, near_symm, hnear]
        rfl

/-- Two distinct candidate maxima are at least two pixels apart: adjacent
strict maxima are impossible. -/
theorem candidates_two_apart (y : List ℚ) (a b : ℕ)
    (ha : a ∈ candidates y) (hb : b ∈ candidates y) (hab : a ≠ b) :
    2 ≤ |(a : ℚ) - (b : ℚ)| := by
  rcases (mem_candidates y a).mp ha with ⟨ha0, haL, hap, han⟩
  rcases (mem_candidates y b).mp hb with ⟨hb0, hbL, hbp, hbn⟩
  have hadj : a + 1 ≠ b := by
    intro hc
    subst hc
    have : a + 1 - 1 = a := by omega
    rw [this] at hbp
    linarith
  have hadj' : b + 1 ≠ a := by
    intro hc
    subst hc
    have : b + 1 - 1 = b := by omega
    rw [this] at hap
    linarith
  have h2 : 2 ≤ a - b ∨ 2 ≤ b - a := by omega
  rcases h2 with h | h
  · have : (2 : ℚ) ≤ (a : ℚ) - b := by
      have hba : b + 2 ≤ a := by omega
      have := Nat.cast_le (α := ℚ).mpr hba
      push_cast at this
      linarith
    calc (2 : ℚ) ≤ (a : ℚ) - b := this
      _ ≤ |(a : ℚ) - b| := le_abs_self _
  · have : (2 : ℚ) ≤ (b : ℚ) - a := by
      have hba : a + 2 ≤ b := by omega
      have := Nat.cast_le (α := ℚ).mpr hba
      push_cast at this
      linarith
    rw [abs_sub_comm]
    calc (2 : ℚ) ≤ (b : ℚ) - a := this
      _ ≤ |(b : ℚ) - a| := le_abs_self _

theorem threshFiltered_subset (y : List ℚ) (t : ℚ) (i : ℕ)
    (h : i ∈ threshFiltered y t) : i ∈ candidates y := by
  unfold threshFiltered at h
  split at h
  · exact (List.mem_filter.mp h).1
  · exact h

theorem threshFiltered_nodup (y : List ℚ) (t : ℚ) : (threshFiltered y t).Nodup := by
  have hc : (candidates y).Nodup := (List.nodup_range _).filter _
  unfold threshFiltered
  split
  · exact hc.filter _
  · exact hc

theorem sortedCands_mem (y : List ℚ) (t : ℚ) (i : ℕ) :
    i ∈ sortedCands y t ↔ i ∈ threshFiltered y t :=
  (sortDesc_perm _ _).mem_iff

theorem sortedCands_subset_candidates (y : List ℚ) (t : ℚ) (i : ℕ)
    (h : i ∈ sortedCands y t) : i ∈ candidates y :=
  threshFiltered_subset y t i ((sortedCands_mem y t i).mp h)

theorem sortedCands_nodup (y : List ℚ) (t : ℚ) : (sortedCands y t).Nodup :=
  ((sortDesc_perm _ _).nodup_iff).mpr (threshFiltered_nodup y t)

theorem sortedCands_sorted (y : List ℚ) (t : ℚ) :
    (sortedCands y t).Sorted (fun a b => y.getD b 0 ≤ y.getD a 0) :=
  sortDesc_sorted _ _

/-- Every element of the suppressed list is an element of the input list. -/
theorem suppress_subset (xs : List ℕ) (dx : ℚ) (a : ℕ) (h : a ∈ suppress xs dx) :
    a ∈ xs := by
  unfold suppress at h
  rcases List.mem_map.mp h with ⟨i, hi, rfl⟩
  have hirange : i < xs.length := List.mem_range.mp (List.mem_filter.mp hi).1
  rw [getD_eq_get xs i hirange]
  exact List.get_mem xs i hirange

/-- The suppressed list is pairwise separated by more than `dx`. -/
theorem suppress_pairwise_far (xs : List ℕ) (dx : ℚ) :
    (suppress xs dx).Pairwise (fun a b : ℕ => dx < |(a : ℚ) - (b : ℚ)|) := by
  unfold suppress
  rw [List.pairwise_map]
  have hfilter : ((List.range xs.length).filter
      (fun i => !(runFlags xs dx).getD i true)).Pairwise (· < ·) :=
    List.Pairwise.filter _ (List.pairwise_lt_range xs.length)
  refine hfilter.imp_of_mem ?_
  intro i j hi hj hij
  have hi' := List.mem_filter.mp hi
  have hj' := List.mem_filter.mp hj
  have hiL : i < xs.length := List.mem_range.mp hi'.1
  have hjL : j < xs.length := List.mem_range.mp hj'.1
  have hki : (runFlags xs dx).getD i true = false := by
    have := hi'.2
    simpa using this
  have hkj : (runFlags xs dx).getD j true = false := by
    have := hj'.2
    simpa using this
  have := kept_separated xs dx i j hij hjL hki hkj
  have hnot : ¬ (|((xs.getD i 0 : ℕ) : ℚ) - ((xs.getD j 0 : ℕ) : ℚ)| ≤ dx) := by
    intro hc
    rw [(near_iff dx _ _).mpr hc] at this
    exact Bool.true_eq_false.mp this
  linarith [not_le.mp hnot]

/-- The suppressed list is sorted whenever the input list is. -/
theorem suppress_sorted (xs : List ℕ) (dx : ℚ) (key : ℕ → ℚ)
    (hs : xs.Sorted (fun a b => key b ≤ key a)) :
    (suppress xs dx).Sorted (fun a b => key b ≤ key a) := by
  unfold suppress
  rw [List.Sorted, List.pairwise_map]
  have hfilter : ((List.range xs.length).filter
      (fun i => !(runFlags xs dx).getD i true)).Pairwise (· < ·) :=
    List.Pairwise.filter _ (List.pairwise_lt_range xs.length)
  refine hfilter.imp_of_mem ?_
  intro i j hi hj hij
  have hiL : i < xs.length := List.mem_range.mp (List.mem_filter.mp hi).1
  have hjL : j < xs.length := List.mem_range.mp (List.mem_filter.mp hj).1
  rw [getD_eq_get xs i hiL, getD_eq_get xs j hjL]
  exact List.pairwise_iff_get.mp hs ⟨i, hiL⟩ ⟨j, hjL⟩ hij

/-- The strongest candidate always survives suppression. -/
theorem suppress_head_mem (xs : List ℕ) (dx : ℚ) (h0 : 0 < xs.length) :
    xs.getD 0 0 ∈ suppress xs dx := by
  unfold suppress
  refine List.mem_map.mpr ⟨0, ?_, rfl⟩
  refine List.mem_filter.mpr ⟨List.mem_range.mpr h0, ?_⟩
  show (!(runFlags xs dx).getD 0 true) = true
  have := head_never_flagged xs dx h0 xs.length
  rw [runFlags, this]
  rfl

theorem head?_getD_zero {l : List ℕ} {a : ℕ} (h : l.head? = some a) :
    l.getD 0 0 = a ∧ 0 < l.length := by
  cases l with
  | nil => simp at h
  | cons x xs =>
    rw [List.head?_cons] at h
    injection h with h
    subst h
    exact ⟨rfl, by simp⟩

theorem searchMaxima_subset (y : List ℚ) (t dx : ℚ) (j : ℕ)
    (h : j ∈ searchMaxima y t dx) : j ∈ candidates y := by
  unfold searchMaxima at h
  split at h
  · exact sortedCands_subset_candidates y t j (suppress_subset _ dx j h)
  · exact sortedCands_subset_candidates y t j h

/-- Claim C3: the index list returned by search_maxima is sorted by
non-increasing profile value, any two returned indices differ by more than
`dx`, the strongest candidate is never discarded by its own suppression
radius (it is always returned), and `dx ≤ 1` disables suppression
entirely (the full sorted candidate list is returned). -/
theorem claim_C3 (y : List ℚ) (t dx : ℚ) :
    (searchMaxima y t dx).Sorted (fun a b => y.getD b 0 ≤ y.getD a 0) ∧
    (searchMaxima y t dx).Pairwise (fun a b : ℕ => dx < |(a : ℚ) - (b : ℚ)|) ∧
    (∀ a : ℕ, (sortedCands y t).head? = some a → a ∈ searchMaxima y t dx) ∧
    (dx ≤ 1 → searchMaxima y t dx = sortedCands y t) := by
  by_cases hdx : 1 < dx
  · simp only [searchMaxima, if_pos hdx]
    refine ⟨suppress_sorted _ dx _ (sortedCands_sorted y t),
      suppress_pairwise_far _ dx, ?_, ?_⟩
    · intro a ha
      rcases head?_getD_zero ha with ⟨hget, hpos⟩
      have := suppress_head_mem (sortedCands y t) dx hpos
      rwa [hget] at this
    · intro h1
      exact absurd hdx (not_lt.mpr h1)
  · simp only [searchMaxima, if_neg hdx]
    push_neg at hdx
    refine ⟨sortedCands_sorted y t, ?_, ?_, fun _ => trivial⟩
    · have hnd : (sortedCands y t).Nodup := sortedCands_nodup y t
      refine hnd.imp_of_mem ?_
      intro a b ha hb hab
      have h2 := candidates_two_apart y a b
        (sortedCands_subset_candidates y t a ha)
        (sortedCands_subset_candidates y t b hb) hab
      linarith
    · intro a ha
      exact List.mem_of_mem_head? (Option.mem_def.mpr ha)

attribute [local semireducible] Rat.sub Rat.add Rat.mul Rat.inv in
/-- Witness for claim C3 on the profile [0, 2, 0, 1, 0]: with dx = 2 the
weaker peak at index 3 is suppressed by the stronger one at index 1, which
itself is returned; with dx = 1 both peaks are returned. -/
theorem claim_C3_witness :
    1 ∈ searchMaxima [0, 2, 0, 1, 0] 0 2 ∧
    searchMaxima [0, 2, 0, 1, 0] 0 1 = sortedCands [0, 2, 0, 1, 0] 0 ∧
    (searchMaxima [0, 2, 0, 1, 0] 0 2).Pairwise
      (fun a b : ℕ => (2 : ℚ) < |(a : ℚ) - (b : ℚ)|) := by
  refine ⟨(claim_C3 [0, 2, 0, 1, 0] 0 2).2.2.1 1 (by decide), ?_, ?_⟩
  · exact (claim_C3 [0, 2, 0, 1, 0] 0 1).2.2.2 (by norm_num)
  · exact (claim_C3 [0, 2, 0, 1, 0] 0 2).2.1

/-- Claim C4 (amended): the candidate set is exactly the interior indices
where the first difference transitions from strictly positive to strictly
negative; the profile boundary is treated as flat (the padded zero
difference never passes the strict tests) and there is no wraparound.  An
index at the falling end of a flat plateau, whose preceding difference is
zero, is not a candidate. -/
theorem claim_C4_amended (y : List ℚ) (i : ℕ) :
    i ∈ candidates y ↔
      0 < i ∧ i + 1 < y.length ∧
        0 < y.getD i 0 - y.getD (i - 1) 0 ∧ y.getD (i + 1) 0 - y.getD i 0 < 0 := by
  rw [mem_candidates]
  constructor
  · rintro ⟨h0, h1, h2, h3⟩
    exact ⟨h0, h1, by linarith, by linarith⟩
  · rintro ⟨h0, h1, h2, h3⟩
    exact ⟨h0, h1, by linarith, by linarith⟩

attribute [local semireducible] Rat.sub Rat.add Rat.mul Rat.inv in
/-- Counterexample to claim C4 as stated: on the profile [0, 1, 1, 0] the
index 2 sits at the falling end of a flat plateau (difference 0
immediately before, -1 immediately after); the claim's non-negative-to-
negative criterion makes it a candidate, but search_maxima's strict test
`np.hstack((0, dy)) > 0` rejects it and the code's candidate set is
empty. -/
theorem claim_C4_counterexample :
    candidates [0, 1, 1, 0] = [] ∧ specCandidates [0, 1, 1, 0] = [2] := by
  constructor <;> decide

/-- Claim C5: an empty input profile yields an empty peak list, and a
(truthy) threshold that excludes every candidate also yields an empty
list; neither case is an error. -/
theorem claim_C5 :
    (∀ t dx : ℚ, searchMaxima [] t dx = []) ∧
    (∀ (y : List ℚ) (t dx : ℚ), t ≠ 0 →
      (∀ i ∈ candidates y, y.getD i 0 ≤ t) → searchMaxima y t dx = []) := by
  constructor
  · intro t dx
    have hs : sortedCands [] t = [] := by
      unfold sortedCands threshFiltered
      have hc : candidates [] = [] := rfl
      rw [hc]
      split <;> rfl
    unfold searchMaxima
    rw [hs]
    split <;> rfl
  · intro y t dx ht hall
    have hf : threshFiltered y t = [] := by
      unfold threshFiltered
      rw [if_pos ht]
      refine List.filter_eq_nil_iff.mpr ?_
      intro a ha
      simp only [decide_eq_true_eq]
      exact not_lt.mpr (hall a ha)
    have hs : sortedCands y t = [] := by
      unfold sortedCands
      rw [hf]
      rfl
    unfold searchMaxima
    rw [hs]
    split <;> rfl

attribute [local semireducible] Rat.sub Rat.add Rat.mul Rat.inv in
/-- Witness for claim C5: the profile [0, 1, 0] has the single candidate
peak at index 1 with value 1, which a threshold of 5 excludes. -/
theorem claim_C5_witness :
    searchMaxima [] 3 2 = [] ∧ searchMaxima [0, 1, 0] 5 0 = [] := by
  constructor
  · exact claim_C5.1 3 2
  · refine claim_C5.2 [0, 1, 0] 5 0 (by norm_num) ?_
    intro i hi
    have hc : candidates [0, 1, 0] = [1] := by decide
    rw [hc] at hi
    have hone : i = 1 := by simpa using hi
    subst hone
    decide

/-- Claim C6 (amended): on a profile point-sampled from the quadratic
`q(t) = c0 + c1*t + c2*t^2` around an integer row j, the refinement
computes `a2 = c2` and the refined position `y* = -c1/(2*c2)`, which for a
quadratic with a maximum (`c2 < 0`) is exactly the true maximum location;
the refined value, however, is `f* = q(y*) - c2/12`, the true peak value
offset by `-c2/12` (the 13/12-style `a0` is built for pixel-averaged
samples, on which `a0` recovers the true central value; on point samples
it overshoots a maximum by `|c2|/12`). -/
theorem claim_C6_amended (c0 c1 c2 fm f0 fp : ℚ) (j : ℕ) (hc : c2 ≠ 0)
    (hfm : fm = c0 + c1 * ((j : ℚ) - 1) + c2 * ((j : ℚ) - 1) ^ 2)
    (hf0 : f0 = c0 + c1 * (j : ℚ) + c2 * (j : ℚ) ^ 2)
    (hfp : fp = c0 + c1 * ((j : ℚ) + 1) + c2 * ((j : ℚ) + 1) ^ 2) :
    a2c fm f0 fp = c2 ∧
    yRefine j fm f0 fp = -c1 / (2 * c2) ∧
    fRefine fm f0 fp = c0 - c1 ^ 2 / (4 * c2) - c2 / 12 := by
  subst hfm hf0 hfp
  have ha2 : a2c (c0 + c1 * ((j : ℚ) - 1) + c2 * ((j : ℚ) - 1) ^ 2)
      (c0 + c1 * (j : ℚ) + c2 * (j : ℚ) ^ 2)
      (c0 + c1 * ((j : ℚ) + 1) + c2 * ((j : ℚ) + 1) ^ 2) = c2 := by
    unfold a2c; ring
  have ha1 : a1c (c0 + c1 * ((j : ℚ) - 1) + c2 * ((j : ℚ) - 1) ^ 2)
      (c0 + c1 * (j : ℚ) + c2 * (j : ℚ) ^ 2)
      (c0 + c1 * ((j : ℚ) + 1) + c2 * ((j : ℚ) + 1) ^ 2) = c1 + 2 * c2 * (j : ℚ) := by
    unfold a1c; ring
  have ha0 : a0c (c0 + c1 * ((j : ℚ) - 1) + c2 * ((j : ℚ) - 1) ^ 2)
      (c0 + c1 * (j : ℚ) + c2 * (j : ℚ) ^ 2)
      (c0 + c1 * ((j : ℚ) + 1) + c2 * ((j : ℚ) + 1) ^ 2)
      = c0 + c1 * (j : ℚ) + c2 * (j : ℚ) ^ 2 - c2 / 12 := by
    unfold a0c; ring
  refine ⟨ha2, ?_, ?_⟩
  · unfold yRefine
    rw [ha1, ha2]
    field_simp
    ring
  · unfold fRefine
    rw [ha0, ha1, ha2]
    field_simp
    ring

/-- Witness for claim C6 on `q(t) = -(t-1)^2` (c0 = -1, c1 = 2, c2 = -1)
sampled at j = 1: the three samples are (-1, 0, -1), `a2 = -1`, the
refined position is the true maximum location 1, and the refined value is
the true peak value 0 plus 1/12. -/
theorem claim_C6_witness :
    a2c (-1 : ℚ) 0 (-1) = -1 ∧
    yRefine 1 (-1 : ℚ) 0 (-1) = -2 / (2 * -1) ∧
    fRefine (-1 : ℚ) 0 (-1) = -1 - 2 ^ 2 / (4 * -1) - -1 / 12 :=
  claim_C6_amended (-1) 2 (-1) (-1) 0 (-1) 1 (by norm_num)
    (by push_cast; ring) (by push_cast; ring) (by push_cast; ring)

attribute [local semireducible] Rat.sub Rat.add Rat.mul Rat.inv in
/-- Counterexample to claim C6 as stated: on the profile sampled from the
true quadratic `qEx(t) = -(t-1)^2` at its interior integer maximum j = 1,
the refined position equals the true maximum location 1, but the refined
peak value is 1/12, not the true peak value `qEx 1 = 0`. -/
theorem claim_C6_counterexample :
    yRefine 1 (qEx 0) (qEx 1) (qEx 2) = 1 ∧
    fRefine (qEx 0) (qEx 1) (qEx 2) ≠ qEx 1 := by
  constructor <;> decide

theorem selectPairA_cons (ys : ℚ) (a b : ℕ) (rest : List ℕ) :
    selectPairA ys (a :: b :: rest) =
      if (a : ℚ) < ys ∧ (b : ℚ) < ys then
        match ((a :: b :: rest).filter (fun (j : ℕ) => decide (ys < (j : ℚ)))).head? with
        | some c => some (a, c)
        | none => none
      else if ys < (a : ℚ) ∧ ys < (b : ℚ) then
        match ((a :: b :: rest).filter (fun (j : ℕ) => decide ((j : ℚ) < ys))).head? with
        | some c => some (c, b)
        | none => none
      else some (min a b, max a b) := rfl

/-- Claim C9: the stellar-position disambiguation of detect_surface
(measure_height.py).  With `jm = a :: b :: rest` the strength-sorted peak
list and `a, b` its two strongest members: if both lie below `y_star`, the
strongest candidate above the star (necessarily a weaker one, from `rest`)
replaces the second member and the resulting pair straddles the star, and
if no such candidate exists the column is discarded (`none`); the case
with both peaks above the star is symmetric; when the two peaks already
straddle the star they are returned sorted into (below, above) order. -/
theorem claim_C9 (ys : ℚ) (a b : ℕ) (rest : List ℕ) :
    ((a : ℚ) < ys → (b : ℚ) < ys →
      (∀ c : ℕ,
        ((a :: b :: rest).filter (fun (j : ℕ) => decide (ys < (j : ℚ)))).head? = some c →
        selectPairA ys (a :: b :: rest) = some (a, c) ∧ c ∈ rest ∧
          (a : ℚ) < ys ∧ ys < (c : ℚ)) ∧
      (((a :: b :: rest).filter (fun (j : ℕ) => decide (ys < (j : ℚ)))).head? = none →
        selectPairA ys (a :: b :: rest) = none)) ∧
    (ys < (a : ℚ) → ys < (b : ℚ) →
      (∀ c : ℕ,
        ((a :: b :: rest).filter (fun (j : ℕ) => decide ((j : ℚ) < ys))).head? = some c →
        selectPairA ys (a :: b :: rest) = some (c, b) ∧ c ∈ rest ∧
          (c : ℚ) < ys ∧ ys < (b : ℚ)) ∧
      (((a :: b :: rest).filter (fun (j : ℕ) => decide ((j : ℚ) < ys))).head? = none →
        selectPairA ys (a :: b :: rest) = none)) ∧
    (¬((a : ℚ) < ys ∧ (b : ℚ) < ys) → ¬(ys < (a : ℚ) ∧ ys < (b : ℚ)) →
      selectPairA ys (a :: b :: rest) = some (min a b, max a b)) := by
  refine ⟨?_, ?_, ?_⟩
  · intro ha hb
    constructor
    · intro c hc
      have hcmem : c ∈ (a :: b :: rest).filter (fun (j : ℕ) => decide (ys < (j : ℚ))) :=
        List.mem_of_mem_head? (Option.mem_def.mpr hc)
      rcases List.mem_filter.mp hcmem with ⟨hcjm, hcys⟩
      have hcys' : ys < (c : ℚ) := by simpa using hcys
      have hcrest : c ∈ rest := by
        rcases List.mem_cons.mp hcjm with rfl | h2
        · exact absurd hcys' (not_lt.mpr (le_of_lt ha))
        rcases List.mem_cons.mp h2 with rfl | h3
        · exact absurd hcys' (not_lt.mpr (le_of_lt hb))
        · exact h3
      refine ⟨?_, hcrest, ha, hcys'⟩
      rw [selectPairA_cons, if_pos ⟨ha, hb⟩, hc]
    · intro hnone
      rw [selectPairA_cons, if_pos ⟨ha, hb⟩, hnone]
  · intro ha hb
    have hnot1 : ¬((a : ℚ) < ys ∧ (b : ℚ) < ys) := by
      rintro ⟨h1, _⟩
      exact absurd ha (not_lt.mpr (le_of_lt h1))
    constructor
    · intro c hc
      have hcmem : c ∈ (a :: b :: rest).filter (fun (j : ℕ) => decide ((j : ℚ) < ys)) :=
        List.mem_of_mem_head? (Option.mem_def.mpr hc)
      rcases List.mem_filter.mp hcmem with ⟨hcjm, hcys⟩
      have hcys' : (c : ℚ) < ys := by simpa using hcys
      have hcrest : c ∈ rest := by
        rcases List.mem_cons.mp hcjm with rfl | h2
        · exact absurd hcys' (not_lt.mpr (le_of_lt ha))
        rcases List.mem_cons.mp h2 with rfl | h3
        · exact absurd hcys' (not_lt.mpr (le_of_lt hb))
        · exact h3
      refine ⟨?_, hcrest, hcys', hb⟩
      rw [selectPairA_cons, if_neg hnot1, if_pos ⟨ha, hb⟩, hc]
    · intro hnone
      rw [selectPairA_cons, if_neg hnot1, if_pos ⟨ha, hb⟩, hnone]
  · intro h1 h2
    rw [selectPairA_cons, if_neg h1, if_neg h2]

attribute [local semireducible] Rat.sub Rat.add Rat.mul Rat.inv in
/-- Witness for claim C9 with `y_star = 5`: on [1, 2, 8] (both strongest
below the star) the weaker candidate 8 replaces the second member giving
(1, 8); on [1, 2, 3] no candidate lies above the star and the column is
discarded; on [8, 2] the peaks straddle the star and are sorted into
(below, above) order. -/
theorem claim_C9_witness :
    selectPairA 5 [1, 2, 8] = some (1, 8) ∧ 8 ∈ [8] ∧
    selectPairA 5 [1, 2, 3] = none ∧
    selectPairA 5 [8, 2] = some (min 8 2, max 8 2) := by
  have h1 := ((claim_C9 5 1 2 [8]).1 (by norm_num) (by norm_num)).1 8 (by decide)
  have h2 := ((claim_C9 5 1 2 [3]).1 (by norm_num) (by norm_num)).2 (by decide)
  have h3 := (claim_C9 5 8 2 []).2.2
    (by rintro ⟨h8, h2b⟩; push_cast at h8; norm_num at h8)
    (by rintro ⟨h8, h2b⟩; push_cast at h2b; norm_num at h2b)
  exact ⟨h1.1, h1.2.1, h2, h3⟩

/-! ### Deprojection lemmas -/

theorem sum_map_neg {α : Type} (l : List α) (f : α → ℚ) :
    (l.map (fun x => -f x)).sum = -(l.map f).sum := by
  induction l with
  | nil => simp
  | cons h t ih => simp only [List.map_cons, List.sum_cons, ih]; ring

theorem mmsStage1_mem (sq : ℚ → ℚ) (G : DiskGeom) (pts : List RawPoint)
    (p : RawPoint) :
    p ∈ mmsStage1 sq G pts ↔ p ∈ pts ∧ mask2B sq G (flipH G pts) p = false := by
  unfold mmsStage1
  rw [List.mem_filter]
  simp [Bool.not_eq_true']

theorem mmsStage2_mem (sq : ℚ → ℚ) (G : DiskGeom) (pts : List RawPoint)
    (p : RawPoint) :
    p ∈ mmsStage2 sq G pts ↔
      p ∈ mmsStage1 sq G pts ∧ ¬(mmsV sq G pts p < 0) := by
  unfold mmsStage2
  rw [List.mem_filter]
  simp

theorem mask2B_false {sq : ℚ → ℚ} {G : DiskGeom} {fl : Bool} {p : RawPoint}
    (h : mask2B sq G fl p = false) :
    0 ≤ hScaled G fl p ∧ vFiniteB G p = true ∧ rScaled sq G fl p ≤ 400 ∧
      2 / 5 ≤ |p.vel - G.v_syst| := by
  unfold mask2B at h
  simp only [Bool.or_eq_false_iff, Bool.not_eq_false', decide_eq_false_iff_not,
    not_lt] at h
  exact ⟨h.1.1.1, h.1.1.2, h.1.2, h.2⟩

theorem csUnmasked_mem (sq : ℚ → ℚ) (G : DiskGeom) (pts : List RawPoint)
    (p : RawPoint) :
    p ∈ csUnmasked sq G pts ↔ p ∈ pts ∧ csMask sq G p = false := by
  unfold csUnmasked
  rw [List.mem_filter]
  simp [Bool.not_eq_true']

theorem csMask_false {sq : ℚ → ℚ} {G : DiskGeom} {p : RawPoint}
    (h : csMask sq G p = false) :
    0 ≤ csH G p ∧ vFiniteB G p = true ∧ 3 / 2 ≤ |p.vel - G.v_syst| := by
  unfold csMask at h
  simp only [Bool.or_eq_false_iff, Bool.not_eq_false', decide_eq_false_iff_not,
    not_lt] at h
  exact ⟨h.1.1, h.1.2, h.2⟩

theorem vFiniteB_true {G : DiskGeom} {p : RawPoint} (h : vFiniteB G p = true) :
    G.cos_i ≠ 0 ∧ (p.x - G.x_star) * G.sin_i ≠ 0 := by
  unfold vFiniteB at h
  simp only [Bool.and_eq_true, decide_eq_true_eq] at h
  exact h

/-- Claim C1: every tuple of the sequences returned by the deprojectors is
valid — non-negative height, finite velocity, and not from a channel
inside the systemic-velocity exclusion window (0.4 km/s for
measure_mol_surface, 1.5 km/s for Surface._compute_surface) — and is the
image of an input point, invalid points having been excluded by the
compression of the masked arrays rather than encoded as sentinels. -/
theorem claim_C1 (sq jy : ℚ → ℚ) (G : DiskGeom) (pts : List RawPoint) :
    (∀ q ∈ mmsOut sq jy G pts,
      0 ≤ q.2.1 ∧ ∃ p ∈ pts, vFiniteB G p = true ∧
        2 / 5 ≤ |p.vel - G.v_syst| ∧
        q = (rScaled sq G (flipH G pts) p, hScaled G (flipH G pts) p,
          mmsV sq G pts p, jy ((p.t0 + p.t1) / 2))) ∧
    (∀ q ∈ csOut sq G pts,
      0 ≤ q.2.1 ∧ ∃ p ∈ pts, vFiniteB G p = true ∧
        3 / 2 ≤ |p.vel - G.v_syst| ∧
        q = (csR sq G p, csH G p, csVOut sq G pts p)) := by
  constructor
  · intro q hq
    unfold mmsOut at hq
    rcases List.mem_map.mp hq with ⟨p, hp, rfl⟩
    rcases (mmsStage2_mem sq G pts p).mp hp with ⟨hp1, hv⟩
    rcases (mmsStage1_mem sq G pts p).mp hp1 with ⟨hmem, hmask⟩
    rcases mask2B_false hmask with ⟨hh, hfin, hr, hwin⟩
    exact ⟨hh, p, hmem, hfin, hwin, rfl⟩
  · intro q hq
    unfold csOut at hq
    rcases List.mem_map.mp hq with ⟨p, hp, rfl⟩
    rcases (csUnmasked_mem sq G pts p).mp hp with ⟨hmem, hmask⟩
    rcases csMask_false hmask with ⟨hh, hfin, hwin⟩
    exact ⟨hh, p, hmem, hfin, hwin, rfl⟩

attribute [local semireducible] Rat.sub Rat.add Rat.mul Rat.inv in
/-- Witness for claim C1: a single point at velocity 2 survives every mask
of measure_mol_surface and yields the valid output tuple (2, 1, 4, 0). -/
theorem claim_C1_witness :
    0 ≤ (((2 : ℚ), (1 : ℚ), (4 : ℚ), (0 : ℚ))).2.1 ∧
    ∃ p ∈ [exPt], vFiniteB exG p = true ∧
      2 / 5 ≤ |p.vel - exG.v_syst| ∧
      ((2 : ℚ), (1 : ℚ), (4 : ℚ), (0 : ℚ))
        = (rScaled (fun q => q) exG (flipH exG [exPt]) p,
           hScaled exG (flipH exG [exPt]) p,
           mmsV (fun q => q) exG [exPt] p, (fun q : ℚ => q) ((p.t0 + p.t1) / 2)) :=
  (claim_C1 (fun q => q) (fun q => q) exG [exPt]).1 _ (by decide)

/-- Claim C2: the mean of the returned velocity sequence of either
deprojector is non-negative (with the convention 0/0 = 0 covering the
empty case, matching numpy's nan mean comparing false); moreover, exactly
when the mean of the unmasked velocities is negative, the returned
velocities are the negated ones — with the residual `v < 0` mask applied
afterwards in measure_mol_surface. -/
theorem claim_C2 (sq jy : ℚ → ℚ) (G : DiskGeom) (pts : List RawPoint) :
    0 ≤ ((mmsOut sq jy G pts).map (fun q => q.2.2.1)).sum
        / ((mmsOut sq jy G pts).length : ℚ) ∧
    (mmsDoFlip sq G pts = true →
      (mmsOut sq jy G pts).map (fun q => q.2.2.1)
        = ((mmsStage1 sq G pts).map
            (fun p => -vVal sq G (flipH G pts) p)).filter
              (fun z => !decide (z < 0))) ∧
    0 ≤ ((csOut sq G pts).map (fun q => q.2.2)).sum
        / ((csOut sq G pts).length : ℚ) ∧
    (csDoFlip sq G pts = true →
      (csOut sq G pts).map (fun q => q.2.2)
        = (csUnmasked sq G pts).map (fun p => -csV sq G p)) := by
  have hmapmms : (mmsOut sq jy G pts).map (fun q => q.2.2.1)
      = (mmsStage2 sq G pts).map (fun p => mmsV sq G pts p) := by
    unfold mmsOut
    rw [List.map_map]
    rfl
  have hmapcs : (csOut sq G pts).map (fun q => q.2.2)
      = (csUnmasked sq G pts).map (fun p => csVOut sq G pts p) := by
    unfold csOut
    rw [List.map_map]
    rfl
  refine ⟨?_, ?_, ?_, ?_⟩
  · refine div_nonneg ?_ (by positivity)
    rw [hmapmms]
    refine List.sum_nonneg ?_
    intro x hx
    rcases List.mem_map.mp hx with ⟨p, hp, rfl⟩
    rcases (mmsStage2_mem sq G pts p).mp hp with ⟨_, hv⟩
    exact not_lt.mp hv
  · intro hflip
    have hv : ∀ p : RawPoint, mmsV sq G pts p = -vVal sq G (flipH G pts) p := by
      intro p
      unfold mmsV
      rw [if_pos hflip]
    rw [hmapmms]
    unfold mmsStage2
    rw [List.map_filter]
    congr 1
    · funext p
      rw [hv p]
    · apply List.filter_congr
      intro p _
      simp only [Function.comp, hv p]
  · rw [hmapcs]
    have hlenout : ((csOut sq G pts).length : ℚ) = ((csUnmasked sq G pts).length : ℚ) := by
      unfold csOut
      simp
    rw [hlenout]
    by_cases hflip : csDoFlip sq G pts = true
    · have hv : (fun p => csVOut sq G pts p) = fun p : RawPoint => -csV sq G p := by
        funext p
        unfold csVOut
        rw [if_pos hflip]
      have hmean : ((csUnmasked sq G pts).map (csV sq G)).sum
          / ((csUnmasked sq G pts).length : ℚ) < 0 := by
        have h := hflip
        unfold csDoFlip at h
        exact of_decide_eq_true h
      have hsum : ((csUnmasked sq G pts).map (fun p => csVOut sq G pts p)).sum
          = -((csUnmasked sq G pts).map (csV sq G)).sum := by
        rw [hv]
        exact sum_map_neg (csUnmasked sq G pts) (csV sq G)
      rw [hsum, neg_div]
      linarith
    · have hv : (fun p => csVOut sq G pts p) = fun p : RawPoint => csV sq G p := by
        funext p
        unfold csVOut
        rw [if_neg hflip]
      have hmean : ¬(((csUnmasked sq G pts).map (csV sq G)).sum
          / ((csUnmasked sq G pts).length : ℚ) < 0) := by
        intro hc
        exact hflip (decide_eq_true hc)
      rw [hv]
      exact not_lt.mp hmean
  · intro hflip
    rw [hmapcs]
    have hv : (fun p => csVOut sq G pts p) = fun p : RawPoint => -csV sq G p := by
      funext p
      unfold csVOut
      rw [if_pos hflip]
    rw [hv]

attribute [local semireducible] Rat.sub Rat.add Rat.mul Rat.inv in
/-- Witness for claim C2: a single point on the channel at velocity -2 has
rotation velocity -4, the mean of the unmasked velocities is negative, and
both deprojectors return the negated velocities. -/
theorem claim_C2_witness :
    (mmsOut (fun q => q) (fun q => q) exG [exPtNeg]).map (fun q => q.2.2.1)
      = ((mmsStage1 (fun q => q) exG [exPtNeg]).map
          (fun p => -vVal (fun q => q) exG (flipH exG [exPtNeg]) p)).filter
            (fun z => !decide (z < 0)) ∧
    (csOut (fun q => q) exG [exPtNeg]).map (fun q => q.2.2)
      = (csUnmasked (fun q => q) exG [exPtNeg]).map
          (fun p => -csV (fun q => q) exG p) :=
  ⟨(claim_C2 (fun q => q) (fun q => q) exG [exPtNeg]).2.1 (by decide),
   (claim_C2 (fun q => q) (fun q => q) exG [exPtNeg]).2.2.2 (by decide)⟩

/-- Every index returned by search_maxima is a strict local maximum, so
its refinement quadratic has a strictly negative leading coefficient. -/
theorem searchMaxima_a2_neg (y : List ℚ) (t dx : ℚ) (j : ℕ)
    (hj : j ∈ searchMaxima y t dx) : a2at y j < 0 := by
  have hc := searchMaxima_subset y t dx j hj
  rcases (mem_candidates y j).mp hc with ⟨h0, hL, hprev, hnext⟩
  unfold a2at a2c
  linarith

/-- The two rows refined by a column of Surface._detect_surface both come
from the search_maxima list of that column (the source refines even
columns already marked out of surface, but those values are never saved,
so the model refines exactly the kept pair). -/
theorem processColumnB_rows (ystar : Option ℚ) (thr dx : ℚ) (jy : ℚ → ℚ)
    (i : ℕ) (prof : List ℚ) (s : ColSel)
    (h : processColumnB ystar thr dx jy i prof = some s) :
    ∃ j0 j1 : ℕ, j0 ∈ searchMaxima prof thr dx ∧ j1 ∈ searchMaxima prof thr dx ∧
      s = (i, (refinePos prof j0, refinePos prof j1),
        (jy (refineVal prof j0), jy (refineVal prof j1))) := by
  unfold processColumnB at h
  rcases hm : searchMaxima prof thr dx with _ | ⟨a, _ | ⟨b, rest⟩⟩ <;> rw [hm] at h
  · exact absurd h (by simp)
  · exact absurd h (by simp)
  dsimp only at h
  have hmin : min a b ∈ a :: b :: rest := by
    rcases le_total a b with hab | hab
    · rw [min_eq_left hab]
      exact List.mem_cons_self a _
    · rw [min_eq_right hab]
      exact List.mem_cons_of_mem a (List.mem_cons_self b _)
  have hmax : max a b ∈ a :: b :: rest := by
    rcases le_total a b with hab | hab
    · rw [max_eq_right hab]
      exact List.mem_cons_of_mem a (List.mem_cons_self b _)
    · rw [max_eq_left hab]
      exact List.mem_cons_self a _
  rcases ystar with _ | ys
  · dsimp only at h
    rw [Option.some_inj] at h
    exact ⟨min a b, max a b, hmin, hmax, h.symm⟩
  · dsimp only at h
    by_cases hlt : ((max a b : ℕ) : ℚ) < ys
    · rw [if_pos hlt] at h
      rcases hhd : ((a :: b :: rest).filter
          (fun (j : ℕ) => decide (ys < (j : ℚ)))).head? with _ | c <;> rw [hhd] at h
      · exact absurd h (by simp)
      · dsimp only at h
        have hcmem : c ∈ a :: b :: rest :=
          (List.mem_filter.mp (List.mem_of_mem_head? (Option.mem_def.mpr hhd))).1
        by_cases hmean : ((a : ℚ) + (c : ℚ)) / 2 < ys
        · rw [if_pos hmean] at h
          exact absurd h (by simp)
        · rw [if_neg hmean] at h
          rw [Option.some_inj] at h
          exact ⟨a, c, List.mem_cons_self a _, hcmem, h.symm⟩
    · rw [if_neg hlt] at h
      dsimp only at h
      by_cases hmean : (((min a b : ℕ) : ℚ) + ((max a b : ℕ) : ℚ)) / 2 < ys
      · rw [if_pos hmean] at h
        exact absurd h (by simp)
      · rw [if_neg hmean] at h
        rw [Option.some_inj] at h
        exact ⟨min a b, max a b, hmin, hmax, h.symm⟩

/-- Claim C7: the two geometric degeneracies fail closed.  Every peak
index selected by search_maxima is a strict local maximum, so the
refinement quadratic always has `a2 < 0` — a degenerate `a2 = 0` can never
reach the (unguarded) division, and in particular the two rows refined by
any in-surface column of the per-channel detector both have `a2 < 0`.
And every tuple returned by either deprojector descends from a point
whose velocity denominator `(x - x_star)*sin(inc)` is non-zero (and whose
radius is finite, `cos(inc) ≠ 0`): points with a zero denominator are
masked out, so no non-finite velocity propagates into the outputs. -/
theorem claim_C7 :
    (∀ (y : List ℚ) (t dx : ℚ) (j : ℕ), j ∈ searchMaxima y t dx → a2at y j < 0) ∧
    (∀ (ystar : Option ℚ) (thr dx : ℚ) (jy : ℚ → ℚ) (i : ℕ) (prof : List ℚ)
      (s : ColSel), processColumnB ystar thr dx jy i prof = some s →
      ∃ j0 j1 : ℕ, a2at prof j0 < 0 ∧ a2at prof j1 < 0 ∧
        s = (i, (refinePos prof j0, refinePos prof j1),
          (jy (refineVal prof j0), jy (refineVal prof j1)))) ∧
    (∀ (sq jy : ℚ → ℚ) (G : DiskGeom) (pts : List RawPoint),
      ∀ q ∈ mmsOut sq jy G pts, ∃ p ∈ pts,
        (p.x - G.x_star) * G.sin_i ≠ 0 ∧ G.cos_i ≠ 0 ∧
        q = (rScaled sq G (flipH G pts) p, hScaled G (flipH G pts) p,
          mmsV sq G pts p, jy ((p.t0 + p.t1) / 2))) ∧
    (∀ (sq : ℚ → ℚ) (G : DiskGeom) (pts : List RawPoint),
      ∀ q ∈ csOut sq G pts, ∃ p ∈ pts,
        (p.x - G.x_star) * G.sin_i ≠ 0 ∧ G.cos_i ≠ 0 ∧
        q = (csR sq G p, csH G p, csVOut sq G pts p)) := by
  refine ⟨searchMaxima_a2_neg, ?_, ?_, ?_⟩
  · intro ystar thr dx jy i prof s hs
    rcases processColumnB_rows ystar thr dx jy i prof s hs with ⟨j0, j1, h0, h1, hval⟩
    exact ⟨j0, j1, searchMaxima_a2_neg prof thr dx j0 h0,
      searchMaxima_a2_neg prof thr dx j1 h1, hval⟩
  · intro sq jy G pts q hq
    unfold mmsOut at hq
    rcases List.mem_map.mp hq with ⟨p, hp, rfl⟩
    rcases (mmsStage2_mem sq G pts p).mp hp with ⟨hp1, _⟩
    rcases (mmsStage1_mem sq G pts p).mp hp1 with ⟨hmem, hmask⟩
    rcases vFiniteB_true (mask2B_false hmask).2.1 with ⟨hcos, hden⟩
    exact ⟨p, hmem, hden, hcos, rfl⟩
  · intro sq G pts q hq
    unfold csOut at hq
    rcases List.mem_map.mp hq with ⟨p, hp, rfl⟩
    rcases (csUnmasked_mem sq G pts p).mp hp with ⟨hmem, hmask⟩
    rcases vFiniteB_true (csMask_false hmask).2.1 with ⟨hcos, hden⟩
    exact ⟨p, hmem, hden, hcos, rfl⟩

attribute [local semireducible] Rat.sub Rat.add Rat.mul Rat.inv in
/-- Witness for claim C7: the profile [0, 1, 0] has its peak at index 1
with `a2 = -1 < 0`, and the valid output tuple of the C1 witness descends
from a point with non-zero velocity denominator. -/
theorem claim_C7_witness :
    a2at [0, 1, 0] 1 < 0 ∧
    ∃ p ∈ [exPt], (p.x - exG.x_star) * exG.sin_i ≠ 0 ∧ exG.cos_i ≠ 0 ∧
      ((2 : ℚ), (1 : ℚ), (4 : ℚ), (0 : ℚ))
        = (rScaled (fun q => q) exG (flipH exG [exPt]) p,
           hScaled exG (flipH exG [exPt]) p,
           mmsV (fun q => q) exG [exPt] p, (fun q : ℚ => q) ((p.t0 + p.t1) / 2)) :=
  ⟨claim_C7.1 [0, 1, 0] 0 0 1 (by decide),
   claim_C7.2.2.1 (fun q => q) (fun q => q) exG [exPt] _ (by decide)⟩

/-- The radius of measure_mol_surface does not depend on the sign-flip
branch nor on y_star: both `(y_c - y_b)` and `(y_a - y_c)` equal
`(y_a - y_b)/2`. -/
theorem rRaw_eq (sq : ℚ → ℚ) (G : DiskGeom) (fl : Bool) (p : RawPoint) :
    rRaw sq G fl p
      = sq ((p.x - G.x_star) ^ 2 + ((p.y1 - p.y0) / 2 / G.cos_i) ^ 2) := by
  unfold rRaw ycOf
  cases fl
  · rw [if_neg Bool.false_ne_true]
    exact congrArg sq (by ring)
  · rw [if_pos rfl]
    exact congrArg sq (by ring)

/-- The radius of Surface._compute_surface in y_star-free form. -/
theorem csRraw_eq (sq : ℚ → ℚ) (G : DiskGeom) (p : RawPoint) :
    csRraw sq G p
      = sq ((p.x - G.x_star) ^ 2 + ((p.y1 - p.y0) / 2 / G.cos_i) ^ 2) := by
  unfold csRraw csYc
  exact congrArg sq (by ring)

/-- Claim C10: the per-point radius and rotation velocity computed by both
deprojectors (before masking) are invariant under any change of the
y_star parameter — `y_far - (y_near + y_far)/2 = (y_far - y_near)/2`
cancels y_star from both formulas — even though the sign-flip branch taken
by measure_mol_surface may itself depend on y_star. -/
theorem claim_C10 (sq : ℚ → ℚ) (G : DiskGeom) (a b : ℚ)
    (pts : List RawPoint) (p : RawPoint) :
    rScaled sq { G with y_star := a } (flipH { G with y_star := a } pts) p
      = rScaled sq { G with y_star := b } (flipH { G with y_star := b } pts) p ∧
    vVal sq { G with y_star := a } (flipH { G with y_star := a } pts) p
      = vVal sq { G with y_star := b } (flipH { G with y_star := b } pts) p ∧
    csRraw sq { G with y_star := a } p = csRraw sq { G with y_star := b } p ∧
    csV sq { G with y_star := a } p = csV sq { G with y_star := b } p := by
  have hr : ∀ (ys : ℚ) (fl : Bool),
      rRaw sq { G with y_star := ys } fl p
        = sq ((p.x - G.x_star) ^ 2 + ((p.y1 - p.y0) / 2 / G.cos_i) ^ 2) := by
    intro ys fl
    rw [rRaw_eq]
  have hcs : ∀ ys : ℚ,
      csRraw sq { G with y_star := ys } p
        = sq ((p.x - G.x_star) ^ 2 + ((p.y1 - p.y0) / 2 / G.cos_i) ^ 2) := by
    intro ys
    rw [csRraw_eq]
  refine ⟨?_, ?_, ?_, ?_⟩
  · unfold rScaled
    rw [hr a, hr b]
    rfl
  · unfold vVal
    rw [hr a, hr b]
  · rw [hcs a, hcs b]
  · unfold csV
    rw [hcs a, hcs b]

/-! ### Per-channel failure semantics -/

theorem processColumnB_none (ystar : Option ℚ) (thr dx : ℚ) (jy : ℚ → ℚ)
    (i : ℕ) (prof : List ℚ) (h : (searchMaxima prof thr dx).length ≤ 1) :
    processColumnB ystar thr dx jy i prof = none := by
  unfold processColumnB
  cases hm : searchMaxima prof thr dx with
  | nil => rfl
  | cons a tl =>
    cases tl with
    | nil => rfl
    | cons b r =>
      exfalso
      rw [hm] at h
      simp at h

theorem enum_snd_mem {α : Type} (l : List α) (pr : ℕ × α) (h : pr ∈ l.enum) :
    pr.2 ∈ l := by
  obtain ⟨i, x⟩ := pr
  rw [List.mk_mem_enum_iff_get?] at h
  exact List.get?_mem h

/-- Claim C8 (amended): a channel in which no column produces at least two
peak candidates (in particular one where no column reaches the threshold)
yields `n = 0` with empty arrays and is not an error; a channel with at
most 2 in-surface columns skips the outlier-rejection fits entirely and
reports exactly those columns (so `n` equals their count, which is 1 or 2
when any signal was found, not 0).  The abort case — at least 3 in-surface
columns whose first-fit prune removes every one, making the second
np.polyfit raise — is exhibited by the counterexample theorem. -/
theorem claim_C8 (ystar : Option ℚ) (thr dx : ℚ) (jy : ℚ → ℚ)
    (cols : List (List ℚ)) :
    ((∀ prof ∈ cols, (searchMaxima prof thr dx).length ≤ 1) →
      detectChannelB ystar thr dx jy cols = some (0, [], [], [])) ∧
    ((channelSels ystar thr dx jy cols).length ≤ 2 →
      detectChannelB ystar thr dx jy cols
        = some (saveSels (channelSels ystar thr dx jy cols))) := by
  constructor
  · intro hall
    have hsels : channelSels ystar thr dx jy cols = [] := by
      unfold channelSels
      refine List.filterMap_eq_nil_iff.mpr ?_
      intro pr hpr
      exact processColumnB_none ystar thr dx jy pr.1 pr.2
        (hall pr.2 (enum_snd_mem cols pr hpr))
    unfold detectChannelB
    rw [hsels]
    rfl
  · intro hle
    unfold detectChannelB
    by_cases hemp : (channelSels ystar thr dx jy cols).isEmpty = true
    · have heq : channelSels ystar thr dx jy cols = [] := List.isEmpty_iff.mp hemp
      rw [heq]
      rfl
    · rw [if_neg hemp, if_neg (not_lt.mpr hle)]

attribute [local semireducible] Rat.sub Rat.add Rat.mul Rat.inv in
/-- Witness for claim C8: a flat channel yields `n = 0` gracefully, and a
channel with a single two-peak column reports that column (`n = 1`). -/
theorem claim_C8_witness :
    detectChannelB none 0 0 (fun q => q) [[0, 0]] = some (0, [], [], []) ∧
    detectChannelB none 0 0 (fun q => q) [colA]
      = some (saveSels (channelSels none 0 0 (fun q => q) [colA])) := by
  constructor
  · exact (claim_C8 none 0 0 (fun q => q) [[0, 0]]).1 (by decide)
  · exact (claim_C8 none 0 0 (fun q => q) [colA]).2 (by decide)

attribute [local semireducible] Rat.sub Rat.add Rat.mul Rat.inv in
/-- Counterexample to claim C8 as stated: on the three-column channel
(colA, colB, colA) all three columns are in surface with mid-lines 2, 8, 2;
the first least-squares line (intercept 4, slope 0) fails the straddle
test at every column, the first prune removes all of them, and the second
`np.polyfit` is applied to an empty vector — an uncaught exception that
aborts the whole-cube run instead of yielding `n = 0`. -/
theorem claim_C8_counterexample :
    detectChannelB none 0 0 (fun q => q) [colA, colB, colA] = none := by
  decide

end COLayers
